import Mathlib

/-!
Verification of the conversational retrieval core in `src/chat/chatbot.py`
against its natural-language specification.  All strings are modelled as
`List Char`; external collaborators (vector store, NER model, cross-encoder,
link resolver) are parameters of the embedded functions, exactly as they are
call sites in the source.
-/

namespace ChatEpstein

/-! ### Basic character classes and Python string helpers -/

/-- Characters matched by the character class `[A-Z0-9\-_]` of the citation
regex in `append_sources`. -/
def isIdChar (c : Char) : Bool :=
  decide (('A' ≤ c ∧ c ≤ 'Z') ∨ ('0' ≤ c ∧ c ≤ '9') ∨ c = '-' ∨ c = '_')

/-- Characters matched by `\s` (ASCII whitespace as used by Python `re` and
`str.strip`). -/
def isSpaceChar (c : Char) : Bool :=
  decide (c = ' ' ∨ c = '\t' ∨ c = '\n' ∨ c = '\r' ∨ c = '\x0b' ∨ c = '\x0c')

/-- Characters matched by `[^\)]` in the citation regex. -/
def notRParen (c : Char) : Bool := !(c == ')')

/-- Python `str.lower`, restricted to the ASCII case map of `Char.toLower`. -/
def pyLower (s : List Char) : List Char := s.map Char.toLower

/-- Python `str.strip`: remove leading and trailing whitespace. -/
def pyStrip (s : List Char) : List Char :=
  ((s.dropWhile isSpaceChar).reverse.dropWhile isSpaceChar).reverse

/-- Python truthiness of an optional string (`None` and `""` are falsy). -/
def pyTruthyOpt : Option (List Char) → Bool
  | none => false
  | some s => !s.isEmpty

/-! ### The citation marker scanner of `append_sources`

`append_sources` runs `re.findall(r'\(([A-Z0-9\-_]+),\s*Page\s+([^\)]+)\)', llm_answer)`.
`matchCitationAt` decides whether the pattern matches at the head of the
input (with the greedy/backtracking semantics of the Python engine for this
particular pattern) and returns the two capture groups together with the
remainder of the input after the match; `findCitations` scans left to right,
restarting one character later on failure and after the match on success,
exactly like `re.findall`. -/

/-- The literal `Page` inside the citation pattern. -/
def pageLit : List Char := ['P', 'a', 'g', 'e']

/-- Attempt to match `\(([A-Z0-9\-_]+),\s*Page\s+([^\)]+)\)` at the start of
the input.  Returns the two capture groups and the suffix after the match.
The two branches after the closing parenthesis reflect the greedy semantics
of `\s+[^\)]+` with backtracking: the whole span before `)` is split into a
maximal whitespace run and a nonempty remainder; if the span is entirely
whitespace the engine backtracks so that `[^\)]+` keeps its last character. -/
def matchCitationAt : List Char → Option ((List Char × List Char) × List Char)
  | [] => none
  | c :: t =>
    if c = '(' then
      if t.takeWhile isIdChar = [] then none
      else
        match t.dropWhile isIdChar with
        | ',' :: t2 =>
          match t2.dropWhile isSpaceChar with
          | 'P' :: 'a' :: 'g' :: 'e' :: t4 =>
            match t4.dropWhile notRParen with
            | ')' :: rest =>
              if (t4.takeWhile notRParen).takeWhile isSpaceChar = [] then none
              else if (t4.takeWhile notRParen).dropWhile isSpaceChar = [] then
                if 2 ≤ (t4.takeWhile notRParen).length then
                  some ((t.takeWhile isIdChar,
                    (t4.takeWhile notRParen).drop ((t4.takeWhile notRParen).length - 1)),
                    rest)
                else none
              else
                some ((t.takeWhile isIdChar, (t4.takeWhile notRParen).dropWhile isSpaceChar),
                  rest)
            | _ => none
          | _ => none
        | _ => none
    else none

/-- The literal text of a citation marker: `(` group1 `,` ws `Page` ws group2 `)`. -/
def citationMarker (g1 w1 w2 g2 : List Char) : List Char :=
  '(' :: (g1 ++ ',' :: (w1 ++ (pageLit ++ (w2 ++ (g2 ++ [')'])))))

/-! ### `re.findall` scanning -/

/-- Left-to-right non-overlapping scan of `matchCitationAt`, with explicit
fuel so that the function is structurally recursive (the fuel is always
sufficient because every match consumes at least one character). -/
def findCitationsAux : Nat → List Char → List (List Char × List Char)
  | 0, _ => []
  | _ + 1, [] => []
  | fuel + 1, c :: s =>
    match matchCitationAt (c :: s) with
    | some (g, rest) => g :: findCitationsAux fuel rest
    | none => findCitationsAux fuel s

/-- `re.findall(citation_pattern, llm_answer)` from `append_sources`. -/
def findCitations (s : List Char) : List (List Char × List Char) :=
  findCitationsAux s.length s

/-! ### Order-preserving deduplication (the `seen` set loop) -/

/-- The `seen`-set loop of `append_sources`: keep the first occurrence of
every element, in left-to-right order. -/
def dedupFirstAux {α : Type} [DecidableEq α] (seen : List α) : List α → List α
  | [] => []
  | a :: l => if a ∈ seen then dedupFirstAux seen l else a :: dedupFirstAux (a :: seen) l

/-- Deduplication by first occurrence in left-to-right order. -/
def dedupFirst {α : Type} [DecidableEq α] (l : List α) : List α := dedupFirstAux [] l

/-! ### `append_sources` -/

/-- The per-document metadata stored in `doc_metadata` during `get_docs`. -/
structure DocMeta where
  source : List Char
  document_id : List Char
  page : List Char
  s3_key : Option (List Char)
  url : List Char
deriving DecidableEq

/-- The citation key `f"{doc_id}, Page {page}"`. -/
def citationKey (g1 g2 : List Char) : List Char := g1 ++ ", Page ".data ++ g2

/-- One entry of the Sources section for a resolved citation. -/
def sourceLine (m : DocMeta) : List Char :=
  let pageText := if m.page ≠ "N/A".data then ", Page ".data ++ m.page else []
  let base := "- **".data ++ m.document_id ++ pageText ++ " - ".data ++ m.source ++ "**".data
  let linked :=
    if m.url ≠ [] ∧ m.url ≠ "N/A".data then
      base ++ " - [View Document](".data ++ m.url ++ ")".data
    else base
  linked ++ ['\n']

/-- The loop of `append_sources` over the unique citation keys: builds the
Sources text and populates `citations_metadata` for the keys found in
`doc_metadata`; keys absent from the index are skipped silently. -/
def sourcesLoop (docMeta : List (List Char × DocMeta)) :
    List (List Char) → List Char × List (List Char × List Char)
  | [] => ([], [])
  | k :: ks =>
    match List.lookup k docMeta with
    | some m =>
      let r := sourcesLoop docMeta ks
      (sourceLine m ++ r.1, (k, m.url) :: r.2)
    | none => sourcesLoop docMeta ks

/-- The fixed header of the Sources section. -/
def sourcesHeader : List Char := "\n\n---\n\n**Sources:**\n\n".data

/-- `append_sources(llm_answer)`: parse citation markers, deduplicate by
first occurrence, and append a Sources section for the keys present in
`doc_metadata`.  Returns the final answer text and the `citations_metadata`
map (association list in insertion order). -/
def append_sources (docMeta : List (List Char × DocMeta)) (llmAnswer : List Char) :
    List Char × List (List Char × List Char) :=
  let cits := findCitations llmAnswer
  if cits = [] then (llmAnswer, [])
  else
    let uniq := dedupFirst (cits.map fun p => citationKey p.1 p.2)
    let r := sourcesLoop docMeta uniq
    (llmAnswer ++ sourcesHeader ++ r.1, r.2)

/-- The citation keys listed in the appended Sources section (equally: the
keys of the returned citations map). -/
def sourcesKeys (docMeta : List (List Char × DocMeta)) (llmAnswer : List Char) :
    List (List Char) :=
  (append_sources docMeta llmAnswer).2.map Prod.fst

/-! ### `extract_entities_from_query`

The spaCy pipeline `nlp` is external; the embedded function takes the list
of `(ent.text, ent.label_)` pairs the model produced for the query. -/

/-- The allowed entity labels (the spec calls `GPE` "LOCATION"). -/
def ALLOWED_LABELS : List (List Char) := ["PERSON".data, "ORG".data, "GPE".data]

/-- `extract_entities_from_query`: keep entities with an allowed label whose
stripped text is longer than 2 characters, lowercased, in extraction order. -/
def extract_entities_from_query (ents : List (List Char × List Char)) :
    List (List Char) :=
  (ents.filter fun e => decide (e.2 ∈ ALLOWED_LABELS ∧ 2 < (pyStrip e.1).length)).map
    fun e => pyLower (pyStrip e.1)

/-! ### Candidate retrieval (`entity_aware_retrieval`, stage 1) -/

/-- A passage returned by the vector store: text plus metadata.  Metadata
fields are optional because `chatbot.py` reads them with `metadata.get` and
a default.  `page_number` is numeric: ingestion (`chunk_page`) writes the
1-indexed integer page and the store returns it as a float. -/
structure Passage where
  page_content : List Char
  document_id : Option (List Char)
  page_number : Option Nat
  s3_key : Option (List Char)
  source : Option (List Char)
  publication_date : Option (List Char)
  entities : List (List Char)
deriving DecidableEq

/-- One `similarity_search` invocation: the requested `k` and the optional
entity filter (`{"entities": {"$in": entity_clean}}`). -/
structure SearchCall where
  k : Int
  filter : Option (List (List Char))
deriving DecidableEq

/-- The external vector store: query text, `k`, optional entity filter. -/
abbrev VectorStore := List Char → Int → Option (List (List Char)) → List Passage

/-- Stage 1 of `entity_aware_retrieval`: the candidate sequence passed to the
reranker, together with the log of `similarity_search` calls issued. -/
def entity_aware_candidates (store : VectorStore) (query : List Char)
    (query_entities : List (List Char)) : List Passage × List SearchCall :=
  if query_entities ≠ [] then
    let entity_clean := query_entities.map pyLower
    -- entity_docs_max = 8
    let entity_matched_docs := store query 8 (some entity_clean)
    -- num_to_total = 8 + (entity_docs_max - num_entity_matched)
    let num_to_total : Int := 8 + (8 - (entity_matched_docs.length : Int))
    let normal_docs := store query num_to_total none
    (entity_matched_docs ++ normal_docs,
      [⟨8, some entity_clean⟩, ⟨num_to_total, none⟩])
  else
    (store query 16 none, [⟨16, none⟩])

/-! ### Reranking (`entity_aware_retrieval`, stage 2)

Cross-encoder scores are external inputs (modelled as rationals).  Python's
`sorted(..., key=lambda x: x[1], reverse=True)` is the stable descending
sort by score; it is embedded as the stable descending insertion sort, which
computes exactly that (stable sorts under a fixed total preorder agree). -/

/-- Insert a scored candidate into a (descending) list: it goes before the
first element whose score is not larger, so earlier input elements precede
later ones with an equal score. -/
def insertDesc (x : Passage × ℚ) : List (Passage × ℚ) → List (Passage × ℚ)
  | [] => [x]
  | y :: l => if y.2 ≤ x.2 then x :: y :: l else y :: insertDesc x l

/-- Stable sort by descending score (`sorted(zip(docs, scores), key=score,
reverse=True)`). -/
def sortDesc (l : List (Passage × ℚ)) : List (Passage × ℚ) := l.foldr insertDesc []

/-- The reranking stage: sort the zipped candidates by descending score,
keep the top 8, drop the scores (`[doc for doc, score in reranked[:8]]`). -/
def rerank (docs : List Passage) (scores : List ℚ) : List Passage :=
  ((sortDesc (docs.zip scores)).take 8).map Prod.fst

/-- `entity_aware_retrieval`: candidate retrieval then reranking.  The
`scoresOf` parameter is the external `reranker.predict` batch call. -/
def entity_aware_retrieval (store : VectorStore) (scoresOf : List Passage → List ℚ)
    (query : List Char) (query_entities : List (List Char)) :
    List Passage × List SearchCall :=
  let c := entity_aware_candidates store query query_entities
  (rerank c.1 (scoresOf c.1), c.2)

/-! ### Rendering of numbers (Python `str` of an integer) -/

/-- The decimal digit characters. -/
def digitChar : Nat → Char
  | 0 => '0'
  | 1 => '1'
  | 2 => '2'
  | 3 => '3'
  | 4 => '4'
  | 5 => '5'
  | 6 => '6'
  | 7 => '7'
  | 8 => '8'
  | 9 => '9'
  | _ => '*'

/-- Decimal rendering of a natural number, with structural fuel. -/
def natToCharsAux : Nat → Nat → List Char
  | 0, _ => []
  | fuel + 1, n =>
    if n < 10 then [digitChar n] else natToCharsAux fuel (n / 10) ++ [digitChar (n % 10)]

/-- Decimal rendering of a natural number (`n + 1` fuel always suffices). -/
def natToChars (n : Nat) : List Char := natToCharsAux (n + 1) n

/-! ### `generate_presigned_url` and link resolution

The S3 client call is the external link resolver; it either returns a URL or
raises, modelled by `Except`.  `clientPresent` states whether `s3_client`
was initialised and `bucket` is the `AWS_BUCKET_NAME` value. -/

/-- `generate_presigned_url(s3_key)`: `"N/A"` if the client, bucket or key is
missing/falsy, the resolved URL on success, `"N/A"` if the call raises. -/
def generate_presigned_url (clientPresent : Bool) (bucket : Option (List Char))
    (resolver : List Char → Except (List Char) (List Char))
    (s3Key : Option (List Char)) : List Char :=
  if !clientPresent || !(pyTruthyOpt bucket) || !(pyTruthyOpt s3Key) then "N/A".data
  else
    match s3Key with
    | none => "N/A".data
    | some k =>
      match resolver k with
      | Except.ok url => url
      | Except.error _ => "N/A".data

/-! ### Context assembly (`get_docs`) -/

/-- `document_id` with the `metadata.get('document_id', 'Unknown')` default. -/
def docIdStr (d : Passage) : List Char := d.document_id.getD "Unknown".data

/-- `page_number` with the `metadata.get('page_number', 'N/A')` default, as
rendered by the f-strings of `get_docs` (the store returns the ingested
integer page as a float, so `1` prints as `1.0`). -/
def pageStr (d : Passage) : List Char :=
  match d.page_number with
  | none => "N/A".data
  | some n => natToChars n ++ ".0".data

/-- The grouping key `f"{doc_id}_{page_num}"` of `get_docs`. -/
def docKey (d : Passage) : List Char := docIdStr d ++ '_' :: pageStr d

/-- The (document id, page) pair a passage belongs to, in rendered form. -/
def pagePair (d : Passage) : List Char × List Char := (docIdStr d, pageStr d)

/-- `doc_groups[doc_page_id].append(doc)`: append a passage to its group,
creating the group at the end on first appearance (`defaultdict(list)`
preserves key insertion order). -/
def addToGroups (gs : List (List Char × List Passage)) (k : List Char) (d : Passage) :
    List (List Char × List Passage) :=
  if k ∈ gs.map Prod.fst then
    gs.map fun e => if e.1 = k then (e.1, e.2 ++ [d]) else e
  else gs ++ [(k, [d])]

/-- The `doc_groups` dictionary of `get_docs`: passages grouped by
`docKey`, groups in first-appearance order, members in encounter order. -/
def buildGroups (docs : List Passage) : List (List Char × List Passage) :=
  docs.foldl (fun gs d => addToGroups gs (docKey d) d) []

/-- `combined_content`: member chunk texts joined by the visible divider. -/
def combinedContent (chunks : List Passage) : List Char :=
  List.intercalate "\n\n---\n\n".data (chunks.map Passage.page_content)

/-- The link computed for a group: presigned URL of the first chunk's
`s3_key` when that key is truthy, else `"N/A"`. -/
def blockLink (clientPresent : Bool) (bucket : Option (List Char))
    (resolver : List Char → Except (List Char) (List Char))
    (chunks : List Passage) : List Char :=
  match chunks with
  | [] => "N/A".data
  | first :: _ =>
    if pyTruthyOpt first.s3_key then
      generate_presigned_url clientPresent bucket resolver first.s3_key
    else "N/A".data

/-- One formatted document block (`doc_text` in `get_docs`), numbered `n`.
All metadata comes from the first chunk of the group. -/
def renderBlock (clientPresent : Bool) (bucket : Option (List Char))
    (resolver : List Char → Except (List Char) (List Char))
    (n : Nat) (chunks : List Passage) : List Char :=
  match chunks with
  | [] => []
  | first :: _ =>
    "=== DOCUMENT ".data ++ natToChars n ++ " ===\nSource: ".data ++
      first.source.getD "Unknown".data ++
      "\nDocument ID: ".data ++ docIdStr first ++
      "\nPage: ".data ++ pageStr first ++
      "\nDate: ".data ++ first.publication_date.getD "Unknown".data ++
      "\nLink: ".data ++ blockLink clientPresent bucket resolver chunks ++
      "\n\n".data ++ combinedContent chunks ++
      "\n=== END DOCUMENT ".data ++ natToChars n ++ " ===".data

/-- The `doc_number` loop: render the groups as blocks numbered `n`, `n+1`, …. -/
def renderGroups (clientPresent : Bool) (bucket : Option (List Char))
    (resolver : List Char → Except (List Char) (List Char)) (n : Nat) :
    List (List Char × List Passage) → List (List Char)
  | [] => []
  | g :: gs =>
    renderBlock clientPresent bucket resolver n g.2 ::
      renderGroups clientPresent bucket resolver (n + 1) gs

/-- The document blocks of the assembled context, numbered from 1. -/
def assembleBlocks (clientPresent : Bool) (bucket : Option (List Char))
    (resolver : List Char → Except (List Char) (List Char))
    (docs : List Passage) : List (List Char) :=
  renderGroups clientPresent bucket resolver 1 (buildGroups docs)

/-- The assembled context string returned by `get_docs`. -/
def getDocsContext (clientPresent : Bool) (bucket : Option (List Char))
    (resolver : List Char → Except (List Char) (List Char))
    (docs : List Passage) : List Char :=
  List.intercalate "\n\n".data (assembleBlocks clientPresent bucket resolver docs)

/-- A concrete metadata entry used to exercise the citation extractor. -/
def sampleMeta : DocMeta :=
  { source := "src".data, document_id := "DOC-1".data, page := "1.0".data,
    s3_key := none, url := "N/A".data }

/-- A concrete one-entry citation index. -/
def sampleIndex : List (List Char × DocMeta) := [("DOC-1, Page 1.0".data, sampleMeta)]

/-- A concrete generated answer containing one citation marker. -/
def sampleAnswer : List Char := "See (DOC-1, Page 1.0).".data

/-- A concrete passage used by witnesses. -/
def samplePassage : Passage :=
  { page_content := "text".data, document_id := some "DOC-1".data,
    page_number := some 1, s3_key := none, source := none,
    publication_date := none, entities := [] }

/-- The group-by-first-appearance form of `doc_groups`: one entry per
distinct key, keyed in first-appearance order, members in encounter order. -/
def groupsOf (docs : List Passage) : List (List Char × List Passage) :=
  (dedupFirst (docs.map docKey)).map
    fun k => (k, docs.filter fun d => decide (docKey d = k))

/-- Reassemble a (document id, page) pair into the `f"{doc_id}_{page}"` key. -/
def glueKey (p : List Char × List Char) : List Char := p.1 ++ '_' :: p.2

/-- A second concrete passage (same document, next page). -/
def samplePassage2 : Passage :=
  { page_content := "more".data, document_id := some "DOC-1".data,
    page_number := some 2, s3_key := none, source := none,
    publication_date := none, entities := [] }

/-! ### Session store (`get_session_history`)

`message_store` is a Python dict: an insertion-ordered association list from
session id to that session's message list.  `next(iter(message_store))` is
the first (oldest-created) remaining key. -/

/-- The session store state. -/
abbrev Store := List (List Char × List (List Char))

/-- The hard session cap. -/
def MAX_SESSIONS : Nat := 50

/-- The eviction loop: while the requested id is unseen and the store is at
capacity, delete the oldest-created session.  Returns the new store and the
number of sessions deleted. -/
def evictLoop (sid : List Char) : Store → Store × Nat
  | [] => ([], 0)
  | e :: rest =>
    if sid ∈ (e :: rest).map Prod.fst ∨ (e :: rest).length < MAX_SESSIONS then
      (e :: rest, 0)
    else
      let r := evictLoop sid rest
      (r.1, r.2 + 1)

/-- `get_session_history(session_id)`: evict if needed, create the session
on first use, truncate its history to the last 4 messages, and return the
updated store, the (truncated) history handed to the caller, and the number
of evictions performed. -/
def get_session_history (sid : List Char) (store : Store) :
    Store × List (List Char) × Nat :=
  let r := evictLoop sid store
  let st2 := if sid ∈ r.1.map Prod.fst then r.1 else r.1 ++ [(sid, [])]
  let h := (List.lookup sid st2).getD []
  let h4 := h.drop (h.length - 4)
  let st3 := st2.map fun e => if e.1 = sid then (e.1, h4) else e
  (st3, h4, r.2)

/-- Append a message to a session's history (no truncation happens here;
`RunnableWithMessageHistory` appends to the history object returned by
`get_session_history`). -/
def appendMsg (sid msg : List Char) (store : Store) : Store :=
  store.map fun e => if e.1 = sid then (e.1, e.2 ++ [msg]) else e

/-- One conversational turn for a session: fetch the history (which evicts,
creates and truncates), then append the user and assistant messages. -/
def chatTurn (sid u a : List Char) (store : Store) : Store :=
  appendMsg sid a (appendMsg sid u (get_session_history sid store).1)

/-- Run `get_session_history` for a sequence of session ids, accumulating
the total number of evictions. -/
def useSessions (ids : List (List Char)) (store : Store) : Store × Nat :=
  ids.foldl
    (fun acc sid =>
      let r := get_session_history sid acc.1
      (r.1, acc.2 + r.2.2))
    (store, 0)


/-! ### Lemmas: citation scanning -/

/-- Soundness of `matchCitationAt`: a successful match means the input starts
with a literal citation marker whose capture groups are the returned ones. -/
theorem matchCitationAt_sound {s g1 g2 rest : List Char}
    (h : matchCitationAt s = some ((g1, g2), rest)) :
    ∃ w1 w2, s = citationMarker g1 w1 w2 g2 ++ rest ∧
      (∀ c ∈ w1, isSpaceChar c = true) ∧
      w2 ≠ [] ∧ (∀ c ∈ w2, isSpaceChar c = true) ∧
      g1 ≠ [] ∧ (∀ c ∈ g1, isIdChar c = true) ∧ g2 ≠ [] := by
  unfold matchCitationAt at h
  split at h
  next => exact absurd h (by simp)
  next c t =>
    split at h
    case isFalse => exact absurd h (by simp)
    case isTrue hc =>
      subst hc
      split at h
      next => exact absurd h (by simp)
      next hg1 =>
        have ht : t.takeWhile isIdChar ++ t.dropWhile isIdChar = t :=
          List.takeWhile_append_dropWhile ..
        split at h
        next t2 heq1 =>
          have ht2 : t2.takeWhile isSpaceChar ++ t2.dropWhile isSpaceChar = t2 :=
            List.takeWhile_append_dropWhile ..
          split at h
          next t4 heq2 =>
            have ht4 : t4.takeWhile notRParen ++ t4.dropWhile notRParen = t4 :=
              List.takeWhile_append_dropWhile ..
            split at h
            next rest' heq3 =>
              rw [heq1] at ht
              rw [heq2] at ht2
              set z := t4.takeWhile notRParen with hzdef
              rw [heq3] at ht4
              set a := t.takeWhile isIdChar with hadef
              set w1v := t2.takeWhile isSpaceChar with hw1def
              split at h
              next hw0 => exact absurd h (by simp)
              next hw0 =>
                split at h
                next hg2 =>
                  -- backtracking case: the span before `)` is all whitespace
                  split at h
                  next hlen =>
                    injection h with h1
                    injection h1 with h1 h2
                    injection h1 with hg1' hg2'
                    subst hg1' hg2' h2
                    refine ⟨w1v, z.take (z.length - 1),
                      ?_, ?_, ?_, ?_, hg1, ?_, ?_⟩
                    · -- reconstruct the input
                      simp only [citationMarker, pageLit, List.cons_append,
                        List.append_assoc]
                      rw [← ht, ← ht2, ← ht4]
                      have hgrp : z.take (z.length - 1) ++
                          (z.drop (z.length - 1) ++ ')' :: rest') = z ++ ')' :: rest' := by
                        rw [← List.append_assoc, List.take_append_drop]
                      simp only [List.nil_append]
                      rw [hgrp]
                    · intro x hx
                      exact List.mem_takeWhile_imp (hw1def ▸ hx)
                    · -- w2 nonempty: z has length ≥ 2
                      intro hcon
                      have := congrArg List.length hcon
                      simp at this
                      omega
                    · -- w2 is whitespace: z is all whitespace here
                      intro x hx
                      have hxz : x ∈ z := List.mem_of_mem_take hx
                      have hall := List.dropWhile_eq_nil_iff.mp hg2
                      exact hall x hxz
                    · intro x hx
                      exact List.mem_takeWhile_imp (hadef ▸ hx)
                    · -- g2 nonempty: the last character of z
                      intro hcon
                      have := congrArg List.length hcon
                      simp at this
                      omega
                  next hlen => exact absurd h (by simp)
                next hg2 =>
                  injection h with h1
                  injection h1 with h1 h2
                  injection h1 with hg1' hg2'
                  subst hg1' hg2' h2
                  refine ⟨w1v, z.takeWhile isSpaceChar,
                    ?_, ?_, hw0, ?_, hg1, ?_, hg2⟩
                  · simp only [citationMarker, pageLit, List.cons_append,
                      List.append_assoc]
                    rw [← ht, ← ht2, ← ht4]
                    have hgrp : z.takeWhile isSpaceChar ++
                        (z.dropWhile isSpaceChar ++ ')' :: rest') = z ++ ')' :: rest' := by
                      rw [← List.append_assoc, List.takeWhile_append_dropWhile]
                    simp only [List.nil_append]
                    rw [hgrp]
                  · intro x hx
                    exact List.mem_takeWhile_imp (hw1def ▸ hx)
                  · intro x hx
                    exact List.mem_takeWhile_imp hx
                  · intro x hx
                    exact List.mem_takeWhile_imp (hadef ▸ hx)
            next hne => exact absurd h (by simp)
          next hne => exact absurd h (by simp)
        next hne => exact absurd h (by simp)


/-- Every pair produced by the scan comes from a literal citation marker
occurring in the input. -/
theorem findCitationsAux_sound :
    ∀ (fuel : Nat) (s g1 g2 : List Char), (g1, g2) ∈ findCitationsAux fuel s →
      ∃ w1 w2 pre post, s = pre ++ citationMarker g1 w1 w2 g2 ++ post ∧
        (∀ c ∈ w1, isSpaceChar c = true) ∧
        w2 ≠ [] ∧ (∀ c ∈ w2, isSpaceChar c = true) ∧
        g1 ≠ [] ∧ (∀ c ∈ g1, isIdChar c = true) ∧ g2 ≠ [] := by
  intro fuel
  induction fuel with
  | zero => intro s g1 g2 h; simp [findCitationsAux] at h
  | succ fuel ih =>
    intro s g1 g2 h
    cases s with
    | nil => simp [findCitationsAux] at h
    | cons c t =>
      rw [findCitationsAux] at h
      cases hm : matchCitationAt (c :: t) with
      | none =>
        rw [hm] at h
        obtain ⟨w1, w2, pre, post, heq, hrest⟩ := ih t g1 g2 h
        exact ⟨w1, w2, c :: pre, post, by rw [heq]; rfl, hrest⟩
      | some gr =>
        obtain ⟨⟨a, b⟩, rest⟩ := gr
        rw [hm] at h
        rcases List.mem_cons.mp h with heq | hmem
        · obtain ⟨hg1, hg2⟩ := Prod.mk.injEq .. ▸ heq
          subst hg1 hg2
          obtain ⟨w1, w2, hs, hw1, hw2ne, hw2, hg1ne, hg1id, hg2ne⟩ :=
            matchCitationAt_sound hm
          exact ⟨w1, w2, [], rest, by simpa using hs, hw1, hw2ne, hw2, hg1ne, hg1id, hg2ne⟩
        · obtain ⟨w1, w2, pre, post, heq, hrest⟩ := ih rest g1 g2 hmem
          obtain ⟨w1', w2', hs, _⟩ := matchCitationAt_sound hm
          refine ⟨w1, w2, citationMarker a w1' w2' b ++ pre, post, ?_, hrest⟩
          rw [hs, heq]
          simp [List.append_assoc]

/-- Marker soundness for `findCitations` (the `re.findall` call). -/
theorem findCitations_sound {s g1 g2 : List Char} (h : (g1, g2) ∈ findCitations s) :
    ∃ w1 w2 pre post, s = pre ++ citationMarker g1 w1 w2 g2 ++ post ∧
      (∀ c ∈ w1, isSpaceChar c = true) ∧
      w2 ≠ [] ∧ (∀ c ∈ w2, isSpaceChar c = true) ∧
      g1 ≠ [] ∧ (∀ c ∈ g1, isIdChar c = true) ∧ g2 ≠ [] :=
  findCitationsAux_sound s.length s g1 g2 h

/-! ### Lemmas: first-occurrence deduplication -/

theorem mem_dedupFirstAux {α : Type} [DecidableEq α] :
    ∀ (l seen : List α) (x : α), x ∈ dedupFirstAux seen l ↔ x ∈ l ∧ x ∉ seen := by
  intro l
  induction l with
  | nil => simp [dedupFirstAux]
  | cons a l ih =>
    intro seen x
    rw [dedupFirstAux]
    split
    next ha =>
      rw [ih]
      constructor
      · rintro ⟨hx, hs⟩
        exact ⟨List.mem_cons_of_mem _ hx, hs⟩
      · rintro ⟨hx, hs⟩
        rcases List.mem_cons.mp hx with rfl | hx
        · exact absurd ha hs
        · exact ⟨hx, hs⟩
    next ha =>
      simp only [List.mem_cons, ih]
      constructor
      · rintro (rfl | ⟨hx, hs⟩)
        · exact ⟨Or.inl rfl, ha⟩
        · exact ⟨Or.inr hx, fun hc => hs (Or.inr hc)⟩
      · rintro ⟨rfl | hx, hs⟩
        · exact Or.inl rfl
        · by_cases hxa : x = a
          · exact Or.inl hxa
          · refine Or.inr ⟨hx, fun hc => ?_⟩
            rcases hc with h | h
            · exact hxa h
            · exact hs h

theorem nodup_dedupFirstAux {α : Type} [DecidableEq α] :
    ∀ (l seen : List α), (dedupFirstAux seen l).Nodup := by
  intro l
  induction l with
  | nil => intro seen; simp [dedupFirstAux]
  | cons a l ih =>
    intro seen
    rw [dedupFirstAux]
    split
    next => exact ih seen
    next ha =>
      refine List.nodup_cons.mpr ⟨fun hmem => ?_, ih (a :: seen)⟩
      exact ((mem_dedupFirstAux ..).mp hmem).2 (List.mem_cons_self ..)

theorem sublist_dedupFirstAux {α : Type} [DecidableEq α] :
    ∀ (l seen : List α), List.Sublist (dedupFirstAux seen l) l := by
  intro l
  induction l with
  | nil => intro seen; simp [dedupFirstAux]
  | cons a l ih =>
    intro seen
    rw [dedupFirstAux]
    split
    next => exact (ih seen).cons a
    next => exact (ih (a :: seen)).cons₂ a

theorem mem_dedupFirst {α : Type} [DecidableEq α] {l : List α} {x : α} :
    x ∈ dedupFirst l ↔ x ∈ l := by
  rw [dedupFirst, mem_dedupFirstAux]
  simp

theorem nodup_dedupFirst {α : Type} [DecidableEq α] (l : List α) :
    (dedupFirst l).Nodup := nodup_dedupFirstAux l []

theorem dedupFirst_sublist {α : Type} [DecidableEq α] (l : List α) :
    List.Sublist (dedupFirst l) l := sublist_dedupFirstAux l []

/-! ### Lemmas: the Sources loop -/

theorem sourcesLoop_keys (docMeta : List (List Char × DocMeta)) :
    ∀ ks : List (List Char),
      (sourcesLoop docMeta ks).2.map Prod.fst =
        ks.filter fun k => (List.lookup k docMeta).isSome := by
  intro ks
  induction ks with
  | nil => simp [sourcesLoop]
  | cons k ks ih =>
    rw [sourcesLoop]
    cases hl : List.lookup k docMeta with
    | none => simpa [hl] using ih
    | some m => simpa [hl] using ih

theorem sourcesLoop_of_none (docMeta : List (List Char × DocMeta)) :
    ∀ ks : List (List Char), (∀ k ∈ ks, List.lookup k docMeta = none) →
      sourcesLoop docMeta ks = ([], []) := by
  intro ks
  induction ks with
  | nil => intro _; rfl
  | cons k ks ih =>
    intro h
    rw [sourcesLoop]
    rw [h k (List.mem_cons_self ..)]
    exact ih fun k' hk' => h k' (List.mem_cons_of_mem _ hk')

/-! ### Claim theorems: citation extraction -/

/-- Claim C1: every citation key listed in the appended Sources section (and
in the citations map) was present verbatim as a `(DOCUMENT_ID, Page X)`
marker in the generated text; no key appears twice (keys are deduplicated by
first occurrence, left to right); markers whose key is absent from
`doc_metadata` are dropped silently — they appear neither in the Sources
section nor in the citations map, and no error is raised. -/
theorem claim_C1 (docMeta : List (List Char × DocMeta)) (answer : List Char) :
    (sourcesKeys docMeta answer).Nodup ∧
    (∀ k ∈ sourcesKeys docMeta answer,
      (List.lookup k docMeta).isSome = true ∧
      ∃ g1 g2 w1 w2 pre post,
        k = citationKey g1 g2 ∧
        answer = pre ++ citationMarker g1 w1 w2 g2 ++ post ∧
        (∀ c ∈ w1, isSpaceChar c = true) ∧ (∀ c ∈ w2, isSpaceChar c = true) ∧
        g1 ≠ [] ∧ (∀ c ∈ g1, isIdChar c = true) ∧ g2 ≠ []) ∧
    (∀ k, List.lookup k docMeta = none → k ∉ sourcesKeys docMeta answer) ∧
    ((append_sources docMeta answer).1 =
        answer ++ sourcesHeader ++
          (sourcesLoop docMeta
            (dedupFirst ((findCitations answer).map fun p => citationKey p.1 p.2))).1 ∨
      (findCitations answer = [] ∧ (append_sources docMeta answer).1 = answer ∧
        (append_sources docMeta answer).2 = [])) := by
  by_cases hc : findCitations answer = []
  · have hsk : sourcesKeys docMeta answer = [] := by
      simp [sourcesKeys, append_sources, hc]
    refine ⟨by simp [hsk], ?_, ?_,
      Or.inr ⟨hc, by simp [append_sources, hc], by simp [append_sources, hc]⟩⟩
    · intro k hk
      rw [hsk] at hk
      exact absurd hk (List.not_mem_nil k)
    · intro k _ hk
      rw [hsk] at hk
      exact absurd hk (List.not_mem_nil k)
  · have hkeys : sourcesKeys docMeta answer =
        (dedupFirst ((findCitations answer).map fun p => citationKey p.1 p.2)).filter
          fun k => (List.lookup k docMeta).isSome := by
      simp [sourcesKeys, append_sources, hc, sourcesLoop_keys]
    refine ⟨?_, ?_, ?_, Or.inl ?_⟩
    · rw [hkeys]
      exact (nodup_dedupFirst _).filter _
    · intro k hk
      rw [hkeys] at hk
      have hm := List.mem_filter.mp hk
      refine ⟨hm.2, ?_⟩
      have hu : k ∈ (findCitations answer).map fun p => citationKey p.1 p.2 :=
        mem_dedupFirst.mp hm.1
      obtain ⟨⟨g1, g2⟩, hp, rfl⟩ := List.mem_map.mp hu
      obtain ⟨w1, w2, pre, post, heq, hw1, hw2ne, hw2, hg1ne, hg1id, hg2ne⟩ :=
        findCitations_sound hp
      exact ⟨g1, g2, w1, w2, pre, post, rfl, heq, hw1, hw2, hg1ne, hg1id, hg2ne⟩
    · intro k hlk hk
      rw [hkeys] at hk
      have := (List.mem_filter.mp hk).2
      rw [hlk] at this
      simp at this
    · simp [append_sources, hc]

/-- Claim C1 witness: a concrete answer and index where the key
`DOC-1, Page 1.0` is listed and did occur as a marker. -/
theorem claim_C1_witness :
    ("DOC-1, Page 1.0".data ∈ sourcesKeys sampleIndex sampleAnswer) ∧
    (List.lookup "DOC-1, Page 1.0".data sampleIndex).isSome = true :=
  ⟨by decide, ((claim_C1 sampleIndex sampleAnswer).2.1 _ (by decide)).1⟩

/-- Claim C10: if the answer contains citation markers but none of their
keys is in the index, the Sources header is still appended (with zero
entries) and the citations map is empty; if the answer contains no marker at
all, it is returned unchanged with an empty citations map. -/
theorem claim_C10 :
    (∀ (docMeta : List (List Char × DocMeta)) (ans : List Char),
      findCitations ans ≠ [] →
      (∀ k ∈ dedupFirst ((findCitations ans).map fun p => citationKey p.1 p.2),
        List.lookup k docMeta = none) →
      append_sources docMeta ans = (ans ++ sourcesHeader, [])) ∧
    (∀ (docMeta : List (List Char × DocMeta)) (ans : List Char),
      findCitations ans = [] → append_sources docMeta ans = (ans, [])) := by
  constructor
  · intro docMeta ans hne habs
    rw [append_sources]
    rw [if_neg hne]
    simp [sourcesLoop_of_none docMeta _ habs]
  · intro docMeta ans h
    rw [append_sources]
    rw [if_pos h]

/-- Claim C10 witness: the hallucinated-marker answer gets a bare Sources
header; the marker-free answer is unchanged. -/
theorem claim_C10_witness :
    (findCitations "(DOC-999, Page 1)".data ≠ [] ∧
      append_sources [] "(DOC-999, Page 1)".data =
        ("(DOC-999, Page 1)".data ++ sourcesHeader, [])) ∧
    (findCitations "hello".data = [] ∧
      append_sources [] "hello".data = ("hello".data, [])) :=
  ⟨⟨by decide, claim_C10.1 [] _ (by decide) (fun k _ => rfl)⟩,
    ⟨by decide, claim_C10.2 [] _ (by decide)⟩⟩

/-! ### Claim theorems: candidate retrieval -/

/-- Claim C8: for a query whose extracted entity set is empty, the retriever
issues exactly one unfiltered similarity search call sized 16 and passes its
results directly as the candidate sequence. -/
theorem claim_C8 (store : VectorStore) (query : List Char)
    (ents : List (List Char)) (h : ents = []) :
    entity_aware_candidates store query ents =
      (store query 16 none, [⟨16, none⟩]) := by
  subst h
  simp [entity_aware_candidates]

/-- Claim C8 witness at a concrete store and query. -/
theorem claim_C8_witness :
    entity_aware_candidates (fun _ _ _ => []) "q".data [] =
      ((fun _ _ _ => ([] : List Passage)) "q".data (16 : Int)
        (none : Option (List (List Char))), [⟨16, none⟩]) :=
  claim_C8 (fun _ _ _ => []) "q".data [] rfl

/-- Claim C2: for a query with a non-empty entity set the retriever issues an
entity-filtered search with k = 8 and then an unfiltered search with
k = 8 + (8 − number of entity hits actually returned); the candidate
sequence is the entity hits concatenated (untruncated, hence as a prefix)
before the general hits, with no deduplication, and — provided the store
returns at most k results per call — it has at most 16 elements. -/
theorem claim_C2 (store : VectorStore) (query : List Char)
    (ents : List (List Char)) (hne : ents ≠ [])
    (hbound : ∀ q k f, 0 ≤ k → ((store q k f).length : Int) ≤ k) :
    (entity_aware_candidates store query ents).2 =
      [⟨8, some (ents.map pyLower)⟩,
        ⟨8 + (8 - ((store query 8 (some (ents.map pyLower))).length : Int)), none⟩] ∧
    (entity_aware_candidates store query ents).1 =
      store query 8 (some (ents.map pyLower)) ++
        store query (8 + (8 - ((store query 8 (some (ents.map pyLower))).length : Int)))
          none ∧
    (entity_aware_candidates store query ents).1.length ≤ 16 ∧
    store query 8 (some (ents.map pyLower)) <+:
      (entity_aware_candidates store query ents).1 := by
  have hdef : entity_aware_candidates store query ents =
      (store query 8 (some (ents.map pyLower)) ++
        store query (8 + (8 - ((store query 8 (some (ents.map pyLower))).length : Int)))
          none,
        [⟨8, some (ents.map pyLower)⟩,
          ⟨8 + (8 - ((store query 8 (some (ents.map pyLower))).length : Int)), none⟩]) := by
    simp [entity_aware_candidates, hne]
  rw [hdef]
  have h1 : ((store query 8 (some (ents.map pyLower))).length : Int) ≤ 8 :=
    hbound query 8 (some (ents.map pyLower)) (by omega)
  have h0 : (0 : Int) ≤ 8 + (8 - ((store query 8 (some (ents.map pyLower))).length : Int)) := by
    omega
  have h2 := hbound query
    (8 + (8 - ((store query 8 (some (ents.map pyLower))).length : Int))) none h0
  refine ⟨rfl, rfl, ?_, ⟨_, rfl⟩⟩
  rw [List.length_append]
  omega

/-- Claim C2 witness: a store returning no hits satisfies the size bound and
yields the two logged calls with k = 8 and k = 16. -/
theorem claim_C2_witness :
    (entity_aware_candidates (fun _ _ _ => []) "q".data ["epstein".data]).2 =
      [⟨8, some ["epstein".data]⟩, ⟨16, none⟩] ∧
    (entity_aware_candidates (fun _ _ _ => []) "q".data ["epstein".data]).1.length ≤ 16 := by
  have h := claim_C2 (fun _ _ _ => []) "q".data ["epstein".data]
    (by decide) (fun q k f hk => by simpa using hk)
  exact ⟨by simpa using h.1, h.2.2.1⟩

/-! ### Claim theorems: link resolution failure -/

/-- A lemma shared by the assembler claims: the number of rendered blocks is
the number of groups, whatever the numbering start and the resolver. -/
theorem renderGroups_length (clientPresent : Bool) (bucket : Option (List Char))
    (resolver : List Char → Except (List Char) (List Char)) :
    ∀ (gs : List (List Char × List Passage)) (n : Nat),
      (renderGroups clientPresent bucket resolver n gs).length = gs.length := by
  intro gs
  induction gs with
  | nil => intro n; rfl
  | cons g gs ih =>
    intro n
    rw [renderGroups]
    simp [ih]

/-- Claim C7: a missing client, bucket or object key, or a raising resolver,
makes `generate_presigned_url` return the sentinel `"N/A"`; the group link
degrades to the sentinel on resolver failure; and the assembled block
structure does not depend on the resolver at all — link-resolution failure
never aborts the turn. -/
theorem claim_C7 :
    (∀ (c : Bool) (b : Option (List Char))
        (r : List Char → Except (List Char) (List Char)) (k : Option (List Char)),
      c = false ∨ pyTruthyOpt b = false ∨ pyTruthyOpt k = false →
      generate_presigned_url c b r k = "N/A".data) ∧
    (∀ (c : Bool) (b : Option (List Char))
        (r : List Char → Except (List Char) (List Char)) (key e : List Char),
      r key = Except.error e →
      generate_presigned_url c b r (some key) = "N/A".data) ∧
    (∀ (c : Bool) (b : Option (List Char))
        (r : List Char → Except (List Char) (List Char))
        (first : Passage) (rest : List Passage) (kk e : List Char),
      first.s3_key = some kk → r kk = Except.error e →
      blockLink c b r (first :: rest) = "N/A".data) ∧
    (∀ (c : Bool) (b : Option (List Char))
        (r1 r2 : List Char → Except (List Char) (List Char)) (docs : List Passage),
      (assembleBlocks c b r1 docs).length = (assembleBlocks c b r2 docs).length) := by
  refine ⟨?_, ?_, ?_, ?_⟩
  · rintro c b r k (rfl | hb | hk)
    · rfl
    · simp [generate_presigned_url, hb]
    · simp [generate_presigned_url, hk]
  · intro c b r key e herr
    unfold generate_presigned_url
    split
    next => rfl
    next => simp [herr]
  · intro c b r first rest kk e hkey herr
    simp only [blockLink]
    split
    next =>
      unfold generate_presigned_url
      split
      next => rfl
      next =>
        rw [hkey]
        simp [herr]
    next => rfl
  · intro c b r1 r2 docs
    rw [assembleBlocks, assembleBlocks, renderGroups_length, renderGroups_length]

/-- Claim C7 witness: a resolver that always raises still yields the
sentinel and an assembled structure of the same shape. -/
theorem claim_C7_witness :
    ((fun _ => Except.error "boom".data :
        List Char → Except (List Char) (List Char)) "k".data =
      Except.error "boom".data) ∧
    generate_presigned_url true (some "bucket".data)
      (fun _ => Except.error "boom".data) (some "k".data) = "N/A".data :=
  ⟨rfl, claim_C7.2.1 true (some "bucket".data)
    (fun _ => Except.error "boom".data) "k".data "boom".data rfl⟩

/-! ### Claim theorems: entity extraction -/

/-- Claim C9 counterexample: the claim says the extractor returns a set with
no duplicates, but `extract_entities_from_query` appends one entry per
entity occurrence; a query whose NER output mentions the same entity twice
yields a duplicated list. -/
theorem claim_C9_counterexample :
    extract_entities_from_query
        [("Epstein".data, "PERSON".data), ("Epstein".data, "PERSON".data)] =
      ["epstein".data, "epstein".data] ∧
    ¬ (extract_entities_from_query
        [("Epstein".data, "PERSON".data), ("Epstein".data, "PERSON".data)]).Nodup := by
  exact ⟨by decide, by decide⟩

/-- Claim C9 (amended): the extractor returns a list, in extraction order and
possibly with duplicates, of the lowercased stripped texts of exactly those
entities whose label is PERSON, ORG or GPE (the spec's LOCATION) and whose
stripped original text is longer than 2 characters; an empty NER output
yields an empty list. -/
theorem claim_C9_amended (ents : List (List Char × List Char)) :
    (∀ s ∈ extract_entities_from_query ents, ∃ e ∈ ents,
      s = pyLower (pyStrip e.1) ∧ e.2 ∈ ALLOWED_LABELS ∧ 2 < (pyStrip e.1).length) ∧
    (∀ e ∈ ents, e.2 ∈ ALLOWED_LABELS → 2 < (pyStrip e.1).length →
      pyLower (pyStrip e.1) ∈ extract_entities_from_query ents) ∧
    (ents = [] → extract_entities_from_query ents = []) := by
  refine ⟨?_, ?_, ?_⟩
  · intro s hs
    obtain ⟨e, he, rfl⟩ := List.mem_map.mp hs
    have hf := List.mem_filter.mp he
    have hcond := of_decide_eq_true hf.2
    exact ⟨e, hf.1, rfl, hcond.1, hcond.2⟩
  · intro e he hlab hlen
    refine List.mem_map.mpr ⟨e, List.mem_filter.mpr ⟨he, ?_⟩, rfl⟩
    exact decide_eq_true ⟨hlab, hlen⟩
  · rintro rfl
    rfl

/-- Claim C9 witness for the amended theorem: a PERSON entity longer than
two characters is extracted, lowercased. -/
theorem claim_C9_amended_witness :
    ("PERSON".data ∈ ALLOWED_LABELS) ∧
    (2 < (pyStrip "Epstein".data).length) ∧
    pyLower (pyStrip "Epstein".data) ∈
      extract_entities_from_query [("Epstein".data, "PERSON".data)] :=
  ⟨by decide, by decide,
    (claim_C9_amended [("Epstein".data, "PERSON".data)]).2.1
      ("Epstein".data, "PERSON".data) (by decide) (by decide) (by decide)⟩

/-! ### Lemmas: the stable descending sort -/

/-- `insertDesc` places the new element right after the elements with a
strictly larger score. -/
theorem insertDesc_eq (x : Passage × ℚ) :
    ∀ t : List (Passage × ℚ),
      insertDesc x t =
        t.takeWhile (fun y => decide (x.2 < y.2)) ++
          x :: t.dropWhile (fun y => decide (x.2 < y.2)) := by
  intro t
  induction t with
  | nil => rfl
  | cons y l ih =>
    rw [insertDesc]
    by_cases hyx : y.2 ≤ x.2
    · rw [if_pos hyx]
      have hp : (fun y : Passage × ℚ => decide (x.2 < y.2)) y = false := by
        simp only [decide_eq_false_iff_not, not_lt]
        exact hyx
      simp [List.takeWhile_cons, List.dropWhile_cons, hp]
    · rw [if_neg hyx]
      have hp : (fun y : Passage × ℚ => decide (x.2 < y.2)) y = true := by
        simp only [decide_eq_true_eq]
        exact lt_of_not_ge hyx
      simp [List.takeWhile_cons, List.dropWhile_cons, hp, ih]

/-- Membership in an insertion. -/
theorem mem_insertDesc (x z : Passage × ℚ) :
    ∀ t : List (Passage × ℚ), z ∈ insertDesc x t ↔ z = x ∨ z ∈ t := by
  intro t
  induction t with
  | nil => simp [insertDesc]
  | cons y l ih =>
    rw [insertDesc]
    split
    · simp [List.mem_cons]
    · simp only [List.mem_cons, ih]
      tauto

/-- Insertion preserves descending sortedness. -/
theorem pairwise_insertDesc (x : Passage × ℚ) :
    ∀ t : List (Passage × ℚ),
      List.Pairwise (fun a b : Passage × ℚ => b.2 ≤ a.2) t →
      List.Pairwise (fun a b : Passage × ℚ => b.2 ≤ a.2) (insertDesc x t) := by
  intro t
  induction t with
  | nil => intro _; simp [insertDesc]
  | cons y l ih =>
    intro hp
    have hy := List.pairwise_cons.mp hp
    rw [insertDesc]
    split
    next hyx =>
      refine List.pairwise_cons.mpr ⟨?_, hp⟩
      intro z hz
      rcases List.mem_cons.mp hz with rfl | hz
      · exact hyx
      · exact le_trans (hy.1 z hz) hyx
    next hyx =>
      refine List.pairwise_cons.mpr ⟨?_, ih hy.2⟩
      intro z hz
      rcases (mem_insertDesc x z l).mp hz with rfl | hz
      · exact le_of_lt (lt_of_not_ge hyx)
      · exact hy.1 z hz

/-- The sort output is sorted by descending score. -/
theorem sortDesc_pairwise (l : List (Passage × ℚ)) :
    List.Pairwise (fun a b : Passage × ℚ => b.2 ≤ a.2) (sortDesc l) := by
  induction l with
  | nil => simp [sortDesc]
  | cons x l ih => exact pairwise_insertDesc x _ ih

/-- Insertion preserves length (+1). -/
theorem length_insertDesc (x : Passage × ℚ) :
    ∀ t : List (Passage × ℚ), (insertDesc x t).length = t.length + 1 := by
  intro t
  induction t with
  | nil => rfl
  | cons y l ih =>
    rw [insertDesc]
    split
    · simp
    · simp [ih]

/-- The sort preserves length. -/
theorem length_sortDesc (l : List (Passage × ℚ)) :
    (sortDesc l).length = l.length := by
  induction l with
  | nil => rfl
  | cons x l ih =>
    rw [sortDesc] at ih ⊢
    rw [List.foldr_cons, length_insertDesc, ih]
    rfl

/-- Stability, pointwise: the elements at any fixed score are exactly those
of the input, in input order (insertion never reorders equal scores). -/
theorem filter_insertDesc (s : ℚ) (x : Passage × ℚ) (t : List (Passage × ℚ)) :
    (insertDesc x t).filter (fun y => decide (y.2 = s)) =
      (x :: t).filter (fun y => decide (y.2 = s)) := by
  rw [insertDesc_eq]
  have htwgt : ∀ y ∈ t.takeWhile (fun y => decide (x.2 < y.2)), x.2 < y.2 := by
    intro y hy
    have h1 := List.mem_takeWhile_imp hy
    simp only [decide_eq_true_eq] at h1
    exact h1
  set tw := t.takeWhile (fun y => decide (x.2 < y.2)) with htwdef
  set dw := t.dropWhile (fun y => decide (x.2 < y.2)) with hdwdef
  have hsplit : tw ++ dw = t := List.takeWhile_append_dropWhile ..
  rw [← hsplit]
  rw [List.filter_append, List.filter_cons, List.filter_cons, List.filter_append]
  by_cases hx : x.2 = s
  · have htw : tw.filter (fun y => decide (y.2 = s)) = [] := by
      rw [List.filter_eq_nil_iff]
      intro y hy
      have hlt := htwgt y hy
      simp only [decide_eq_true_eq]
      intro hys
      rw [hx] at hlt
      rw [hys] at hlt
      exact lt_irrefl s hlt
    rw [htw]
    simp [hx]
  · simp [hx]

/-- Stability of the whole sort. -/
theorem filter_sortDesc (s : ℚ) (l : List (Passage × ℚ)) :
    (sortDesc l).filter (fun y => decide (y.2 = s)) =
      l.filter (fun y => decide (y.2 = s)) := by
  induction l with
  | nil => rfl
  | cons x l ih =>
    have : sortDesc (x :: l) = insertDesc x (sortDesc l) := rfl
    rw [this, filter_insertDesc, List.filter_cons, List.filter_cons, ih]

/-! ### Claim theorem: reranking -/

/-- Claim C3: the reranker output is sorted by descending cross-encoder
score; candidates with an equal score keep their relative input order (the
sorted sequence filtered at any score equals the input so filtered); the
output has min(8, input length) passages when the score list matches the
candidate list; and an empty candidate list yields an empty output. -/
theorem claim_C3 (docs : List Passage) (scores : List ℚ) :
    List.Pairwise (fun a b : Passage × ℚ => b.2 ≤ a.2)
      ((sortDesc (docs.zip scores)).take 8) ∧
    (∀ s : ℚ, (sortDesc (docs.zip scores)).filter (fun y => decide (y.2 = s)) =
      (docs.zip scores).filter (fun y => decide (y.2 = s))) ∧
    rerank docs scores = ((sortDesc (docs.zip scores)).take 8).map Prod.fst ∧
    (scores.length = docs.length → (rerank docs scores).length = min 8 docs.length) ∧
    rerank [] scores = [] := by
  refine ⟨?_, ?_, rfl, ?_, rfl⟩
  · exact (sortDesc_pairwise _).sublist (List.take_sublist ..)
  · intro s
    exact filter_sortDesc s _
  · intro hlen
    rw [rerank, List.length_map, List.length_take, length_sortDesc, List.length_zip,
      hlen, Nat.min_self]

/-- Claim C3 witness at two concrete candidates with concrete scores. -/
theorem claim_C3_witness :
    (([1, 2] : List ℚ).length = [samplePassage, samplePassage].length) ∧
    (rerank [samplePassage, samplePassage] [1, 2]).length = min 8 2 :=
  ⟨rfl, (claim_C3 [samplePassage, samplePassage] [1, 2]).2.2.2.1 rfl⟩

/-! ### Lemmas: grouping -/

theorem dedupFirstAux_append_singleton {α : Type} [DecidableEq α] :
    ∀ (l seen : List α) (x : α),
      dedupFirstAux seen (l ++ [x]) =
        if x ∈ l ∨ x ∈ seen then dedupFirstAux seen l
        else dedupFirstAux seen l ++ [x] := by
  intro l
  induction l with
  | nil =>
    intro seen x
    by_cases hx : x ∈ seen <;> simp [dedupFirstAux, hx]
  | cons a l ih =>
    intro seen x
    by_cases ha : a ∈ seen
    · rw [List.cons_append, dedupFirstAux, if_pos ha, ih, dedupFirstAux, if_pos ha]
      by_cases hxl : x ∈ l ∨ x ∈ seen
      · rw [if_pos hxl, if_pos ?side]
        case side =>
          rcases hxl with h | h
          · exact Or.inl (List.mem_cons_of_mem _ h)
          · exact Or.inr h
      · rw [if_neg hxl, if_neg ?side]
        case side =>
          rintro (h | h)
          · rcases List.mem_cons.mp h with rfl | h
            · exact hxl (Or.inr ha)
            · exact hxl (Or.inl h)
          · exact hxl (Or.inr h)
    · rw [List.cons_append, dedupFirstAux, if_neg ha, ih, dedupFirstAux, if_neg ha]
      by_cases hx : x = a ∨ x ∈ l ∨ x ∈ seen
      · have h1 : x ∈ l ∨ x ∈ a :: seen := by
          rcases hx with rfl | h | h
          · exact Or.inr (List.mem_cons_self ..)
          · exact Or.inl h
          · exact Or.inr (List.mem_cons_of_mem _ h)
        have h2 : x ∈ a :: l ∨ x ∈ seen := by
          rcases hx with rfl | h | h
          · exact Or.inl (List.mem_cons_self ..)
          · exact Or.inl (List.mem_cons_of_mem _ h)
          · exact Or.inr h
        rw [if_pos h1, if_pos h2]
      · have h1 : ¬(x ∈ l ∨ x ∈ a :: seen) := by
          rintro (h | h)
          · exact hx (Or.inr (Or.inl h))
          · rcases List.mem_cons.mp h with rfl | h
            · exact hx (Or.inl rfl)
            · exact hx (Or.inr (Or.inr h))
        have h2 : ¬(x ∈ a :: l ∨ x ∈ seen) := by
          rintro (h | h)
          · rcases List.mem_cons.mp h with rfl | h
            · exact hx (Or.inl rfl)
            · exact hx (Or.inr (Or.inl h))
          · exact hx (Or.inr (Or.inr h))
        rw [if_neg h1, if_neg h2]
        simp

theorem dedupFirst_append_singleton {α : Type} [DecidableEq α] (l : List α) (x : α) :
    dedupFirst (l ++ [x]) =
      if x ∈ l then dedupFirst l else dedupFirst l ++ [x] := by
  rw [dedupFirst, dedupFirstAux_append_singleton]
  simp [dedupFirst]

theorem addToGroups_groupsOf (seen : List Passage) (d : Passage) :
    addToGroups (groupsOf seen) (docKey d) d = groupsOf (seen ++ [d]) := by
  have hkeys : (groupsOf seen).map Prod.fst = dedupFirst (seen.map docKey) := by
    rw [groupsOf, List.map_map]
    change List.map id _ = _
    rw [List.map_id]
  rw [addToGroups, hkeys, groupsOf, groupsOf, List.map_append]
  simp only [List.map_cons, List.map_nil]
  rw [dedupFirst_append_singleton]
  by_cases hmem : docKey d ∈ seen.map docKey
  · rw [if_pos (mem_dedupFirst.mpr hmem), if_pos hmem, List.map_map]
    apply List.map_congr_left
    intro k hk
    by_cases hkd : k = docKey d
    · subst hkd
      simp [List.filter_append]
    · have hdk : ¬(docKey d = k) := fun h => hkd h.symm
      simp [hkd, hdk, List.filter_append]
  · rw [if_neg fun hm => hmem (mem_dedupFirst.mp hm), if_neg hmem, List.map_append]
    congr 1
    · apply List.map_congr_left
      intro k hk
      have hkmem : k ∈ seen.map docKey := mem_dedupFirst.mp hk
      have hdk : ¬(docKey d = k) := fun h => hmem (h ▸ hkmem)
      simp [hdk, List.filter_append]
    · have hseen : seen.filter (fun x => decide (docKey x = docKey d)) = [] := by
        rw [List.filter_eq_nil_iff]
        intro x hx
        simp only [decide_eq_true_eq]
        intro hkeq
        exact hmem (hkeq ▸ List.mem_map_of_mem docKey hx)
      simp [List.filter_append, hseen]

theorem buildGroups_eq_aux :
    ∀ (rest seen : List Passage),
      rest.foldl (fun gs d => addToGroups gs (docKey d) d) (groupsOf seen) =
        groupsOf (seen ++ rest) := by
  intro rest
  induction rest with
  | nil => intro seen; simp
  | cons d rest ih =>
    intro seen
    rw [List.foldl_cons, addToGroups_groupsOf, ih]
    simp

theorem buildGroups_eq (docs : List Passage) : buildGroups docs = groupsOf docs := by
  have h := buildGroups_eq_aux docs []
  rw [buildGroups]
  have h0 : groupsOf [] = [] := rfl
  rw [← h0]
  simpa using h

theorem renderGroups_get (c : Bool) (b : Option (List Char))
    (r : List Char → Except (List Char) (List Char)) :
    ∀ (gs : List (List Char × List Passage)) (n i : Nat)
      (h : i < gs.length) (h2 : i < (renderGroups c b r n gs).length),
      (renderGroups c b r n gs).get ⟨i, h2⟩ =
        renderBlock c b r (n + i) (gs.get ⟨i, h⟩).2 := by
  intro gs
  induction gs with
  | nil =>
    intro n i h _
    exact absurd h (by simp)
  | cons g gs ih =>
    intro n i h h2
    cases i with
    | zero => simp [renderGroups]
    | succ i =>
      have h' : i < gs.length := Nat.lt_of_succ_lt_succ h
      have h2' : i < (renderGroups c b r (n + 1) gs).length := by
        rw [renderGroups_length]
        exact h'
      have := ih (n + 1) i h' h2'
      simp only [renderGroups, List.get_cons_succ]
      rw [this]
      congr 1
      omega

/-! ### Lemmas: the grouping key determines the (document, page) pair -/

theorem digitChar_ne_underscore : ∀ k : Nat, digitChar k ≠ '_' := by
  intro k
  unfold digitChar
  split <;> decide

theorem underscore_not_mem_natToCharsAux :
    ∀ fuel n : Nat, '_' ∉ natToCharsAux fuel n := by
  intro fuel
  induction fuel with
  | zero => intro n; simp [natToCharsAux]
  | succ fuel ih =>
    intro n
    rw [natToCharsAux]
    split
    · intro hmem
      rw [List.mem_singleton] at hmem
      exact digitChar_ne_underscore n hmem.symm
    · intro hmem
      rcases List.mem_append.mp hmem with h | h
      · exact ih _ h
      · rw [List.mem_singleton] at h
        exact digitChar_ne_underscore _ h.symm

theorem underscore_not_mem_pageStr (d : Passage) : '_' ∉ pageStr d := by
  rw [pageStr]
  cases d.page_number with
  | none => decide
  | some n =>
    intro hmem
    rcases List.mem_append.mp hmem with h | h
    · exact underscore_not_mem_natToCharsAux _ _ h
    · exact absurd h (by decide)

theorem append_mem_free_inj {α : Type} (x : α) :
    ∀ (a1 a2 b1 b2 : List α), x ∉ a1 → x ∉ a2 →
      a1 ++ x :: b1 = a2 ++ x :: b2 → a1 = a2 ∧ b1 = b2 := by
  intro a1
  induction a1 with
  | nil =>
    intro a2 b1 b2 _ hx2 heq
    cases a2 with
    | nil => simpa using heq
    | cons y a2 =>
      rw [List.nil_append, List.cons_append] at heq
      injection heq with h1 _
      exact absurd (h1 ▸ List.mem_cons_self ..) hx2
  | cons y a1 ih =>
    intro a2 b1 b2 hx1 hx2 heq
    cases a2 with
    | nil =>
      rw [List.cons_append, List.nil_append] at heq
      injection heq with h1 _
      exact absurd (by rw [h1]; exact List.mem_cons_self ..) hx1
    | cons z a2 =>
      rw [List.cons_append, List.cons_append] at heq
      injection heq with h1 h2
      subst h1
      obtain ⟨he, hb⟩ := ih a2 b1 b2
        (fun h => hx1 (List.mem_cons_of_mem _ h))
        (fun h => hx2 (List.mem_cons_of_mem _ h)) h2
      exact ⟨by rw [he], hb⟩

theorem glueKey_inj (p q : List Char × List Char)
    (hp : '_' ∉ p.2) (hq : '_' ∉ q.2) (h : glueKey p = glueKey q) : p = q := by
  have hrev := congrArg List.reverse h
  rw [glueKey, glueKey] at hrev
  simp only [List.reverse_append, List.reverse_cons, List.append_assoc,
    List.singleton_append] at hrev
  obtain ⟨h2, h1⟩ := append_mem_free_inj '_' _ _ _ _
    (fun hm => hp (List.mem_reverse.mp hm)) (fun hm => hq (List.mem_reverse.mp hm)) hrev
  have hfst : p.1 = q.1 := List.reverse_injective h1
  have hsnd : p.2 = q.2 := List.reverse_injective h2
  exact Prod.ext hfst hsnd

theorem dedupFirstAux_map_inj {α β : Type} [DecidableEq α] [DecidableEq β] (f : α → β) :
    ∀ (l seen : List α),
      (∀ a b, (a ∈ l ∨ a ∈ seen) → (b ∈ l ∨ b ∈ seen) → f a = f b → a = b) →
      dedupFirstAux (seen.map f) (l.map f) = (dedupFirstAux seen l).map f := by
  intro l
  induction l with
  | nil => intro seen _; rfl
  | cons a l ih =>
    intro seen hinj
    rw [List.map_cons, dedupFirstAux, dedupFirstAux]
    have hmemiff : f a ∈ seen.map f ↔ a ∈ seen := by
      constructor
      · intro hm
        obtain ⟨p, hp, hfp⟩ := List.mem_map.mp hm
        have := hinj p a (Or.inr hp) (Or.inl (List.mem_cons_self ..)) hfp
        rwa [← this]
      · intro hm
        exact List.mem_map_of_mem f hm
    by_cases ha : a ∈ seen
    · rw [if_pos (hmemiff.mpr ha), if_pos ha]
      refine ih seen fun p q hp hq => hinj p q ?_ ?_
      · rcases hp with h | h
        · exact Or.inl (List.mem_cons_of_mem _ h)
        · exact Or.inr h
      · rcases hq with h | h
        · exact Or.inl (List.mem_cons_of_mem _ h)
        · exact Or.inr h
    · rw [if_neg fun hm => ha (hmemiff.mp hm), if_neg ha, List.map_cons]
      congr 1
      have hmc : (f a :: seen.map f) = (a :: seen).map f := rfl
      rw [hmc]
      refine ih (a :: seen) fun p q hp hq => hinj p q ?_ ?_
      · rcases hp with h | h
        · exact Or.inl (List.mem_cons_of_mem _ h)
        · rcases List.mem_cons.mp h with rfl | h
          · exact Or.inl (List.mem_cons_self ..)
          · exact Or.inr h
      · rcases hq with h | h
        · exact Or.inl (List.mem_cons_of_mem _ h)
        · rcases List.mem_cons.mp h with rfl | h
          · exact Or.inl (List.mem_cons_self ..)
          · exact Or.inr h

theorem dedupFirst_map_inj {α β : Type} [DecidableEq α] [DecidableEq β] (f : α → β)
    (l : List α) (hinj : ∀ a b, a ∈ l → b ∈ l → f a = f b → a = b) :
    dedupFirst (l.map f) = (dedupFirst l).map f := by
  rw [dedupFirst, dedupFirst]
  have h0 : ([] : List β) = ([] : List α).map f := rfl
  rw [h0]
  refine dedupFirstAux_map_inj f l [] fun a b ha hb => hinj a b ?_ ?_
  · rcases ha with h | h
    · exact h
    · exact absurd h (List.not_mem_nil a)
  · rcases hb with h | h
    · exact h
    · exact absurd h (List.not_mem_nil b)

/-! ### Claim theorem: context assembly -/

/-- Claim C4: the assembled context has exactly one block per unique
(document id, page) pair appearing in the reranked sequence, hence at most 8
blocks for a top-8 input; blocks are numbered sequentially from 1 and appear
in first-appearance order of their group, each rendering the group members
in encounter order with their texts joined by the visible divider. -/
theorem claim_C4 (c : Bool) (b : Option (List Char))
    (r : List Char → Except (List Char) (List Char)) (docs : List Passage)
    (h8 : docs.length ≤ 8) :
    (assembleBlocks c b r docs).length = (dedupFirst (docs.map pagePair)).length ∧
    (assembleBlocks c b r docs).length ≤ 8 ∧
    buildGroups docs = (dedupFirst (docs.map docKey)).map
      (fun k => (k, docs.filter fun d => decide (docKey d = k))) ∧
    (∀ (i : Nat) (h : i < (buildGroups docs).length)
        (h2 : i < (assembleBlocks c b r docs).length),
      (assembleBlocks c b r docs).get ⟨i, h2⟩ =
        renderBlock c b r (1 + i) ((buildGroups docs).get ⟨i, h⟩).2) ∧
    (∀ chunks : List Passage,
      combinedContent chunks =
        List.intercalate "\n\n---\n\n".data (chunks.map Passage.page_content)) := by
  have hkeymap : docs.map docKey = (docs.map pagePair).map glueKey := by
    rw [List.map_map]
    apply List.map_congr_left
    intro d _
    rfl
  have hpairinj : ∀ p q, p ∈ docs.map pagePair → q ∈ docs.map pagePair →
      glueKey p = glueKey q → p = q := by
    intro p q hp hq hg
    obtain ⟨d1, _, rfl⟩ := List.mem_map.mp hp
    obtain ⟨d2, _, rfl⟩ := List.mem_map.mp hq
    exact glueKey_inj _ _ (underscore_not_mem_pageStr d1) (underscore_not_mem_pageStr d2) hg
  have hcount : (dedupFirst (docs.map docKey)).length =
      (dedupFirst (docs.map pagePair)).length := by
    rw [hkeymap, dedupFirst_map_inj glueKey _ hpairinj, List.length_map]
  have hlen : (assembleBlocks c b r docs).length =
      (dedupFirst (docs.map docKey)).length := by
    rw [assembleBlocks, renderGroups_length, buildGroups_eq, groupsOf, List.length_map]
  refine ⟨by rw [hlen, hcount], ?_, ?_, ?_, fun chunks => rfl⟩
  · rw [hlen]
    calc (dedupFirst (docs.map docKey)).length
        ≤ (docs.map docKey).length := (dedupFirst_sublist _).length_le
      _ = docs.length := List.length_map ..
      _ ≤ 8 := h8
  · rw [buildGroups_eq, groupsOf]
  · intro i h h2
    exact renderGroups_get c b r (buildGroups docs) 1 i h h2

/-- Claim C4 witness: two passages on different pages of one document give
two blocks, matching the two distinct (document id, page) pairs. -/
theorem claim_C4_witness :
    ([samplePassage, samplePassage2].length ≤ 8) ∧
    (assembleBlocks true none (fun _ => Except.error "e".data)
        [samplePassage, samplePassage2]).length =
      (dedupFirst ([samplePassage, samplePassage2].map pagePair)).length :=
  ⟨by decide,
    (claim_C4 true none (fun _ => Except.error "e".data)
      [samplePassage, samplePassage2] (by decide)).1⟩

/-! ### Lemmas: session store -/

theorem evictLoop_small (sid : List Char) (st : Store)
    (h : st.length < MAX_SESSIONS) : evictLoop sid st = (st, 0) := by
  cases st with
  | nil => rfl
  | cons e rest => rw [evictLoop, if_pos (Or.inr h)]

theorem evictLoop_not_mem (sid : List Char) :
    ∀ st : Store, sid ∉ st.map Prod.fst →
      evictLoop sid st = (st.drop (st.length - 49), st.length - 49) := by
  intro st
  induction st with
  | nil => intro _; rfl
  | cons e rest ih =>
    intro hmem
    by_cases hlen : (e :: rest).length < MAX_SESSIONS
    · rw [evictLoop_small sid _ hlen]
      have h0 : (e :: rest).length - 49 = 0 := by
        simp only [MAX_SESSIONS] at hlen
        omega
      rw [h0]
      rfl
    · rw [evictLoop, if_neg ?cond]
      case cond =>
        rintro (h | h)
        · exact hmem h
        · exact hlen h
      have hrest : sid ∉ rest.map Prod.fst :=
        fun h => hmem (List.mem_cons_of_mem _ h)
      simp only [ih hrest]
      simp only [MAX_SESSIONS, not_lt, List.length_cons] at hlen
      have h1 : (e :: rest).length - 49 = (rest.length - 49) + 1 := by
        simp only [List.length_cons]
        omega
      rw [h1, List.drop_succ_cons]

theorem evictLoop_post (sid : List Char) :
    ∀ st : Store, sid ∈ (evictLoop sid st).1.map Prod.fst ∨
      (evictLoop sid st).1.length < MAX_SESSIONS := by
  intro st
  induction st with
  | nil =>
    right
    simp [evictLoop, MAX_SESSIONS]
  | cons e rest ih =>
    rw [evictLoop]
    split
    next hcond => simpa using hcond
    next => simpa using ih

theorem evictLoop_drop_shape (sid : List Char) :
    ∀ st : Store, ∃ k, evictLoop sid st = (st.drop k, k) := by
  intro st
  induction st with
  | nil => exact ⟨0, rfl⟩
  | cons e rest ih =>
    rw [evictLoop]
    split
    next => exact ⟨0, rfl⟩
    next =>
      obtain ⟨k, hk⟩ := ih
      refine ⟨k + 1, ?_⟩
      simp only [hk, List.drop_succ_cons]

theorem lookup_eq_none_of_not_mem_keys (sid : List Char) :
    ∀ st : Store, sid ∉ st.map Prod.fst → List.lookup sid st = none := by
  intro st
  induction st with
  | nil => intro _; rfl
  | cons e rest ih =>
    intro hmem
    obtain ⟨k, v⟩ := e
    have hne : sid ≠ k := by
      intro h
      exact hmem (h ▸ List.mem_cons_self ..)
    rw [List.lookup_cons]
    have hb : (sid == k) = false := beq_eq_false_iff_ne.mpr hne
    rw [hb]
    exact ih fun h => hmem (List.mem_cons_of_mem _ h)

theorem lookup_append_self (sid : List Char) (v : List (List Char)) :
    ∀ st : Store, sid ∉ st.map Prod.fst →
      List.lookup sid (st ++ [(sid, v)]) = some v := by
  intro st
  induction st with
  | nil => simp [List.lookup_cons]
  | cons e rest ih =>
    intro hmem
    obtain ⟨k, w⟩ := e
    have hne : sid ≠ k := by
      intro h
      exact hmem (h ▸ List.mem_cons_self ..)
    rw [List.cons_append, List.lookup_cons]
    have hb : (sid == k) = false := beq_eq_false_iff_ne.mpr hne
    rw [hb]
    exact ih fun h => hmem (List.mem_cons_of_mem _ h)

theorem map_update_of_not_mem (sid : List Char) (v : List (List Char)) :
    ∀ st : Store, sid ∉ st.map Prod.fst →
      (st.map fun e => if e.1 = sid then (e.1, v) else e) = st := by
  intro st
  induction st with
  | nil => intro _; rfl
  | cons e rest ih =>
    intro hmem
    have hne : ¬(e.1 = sid) := by
      intro h
      exact hmem (h ▸ List.mem_map_of_mem Prod.fst (List.mem_cons_self ..))
    rw [List.map_cons, if_neg hne, ih fun h => hmem (List.mem_cons_of_mem _ h)]

theorem lookup_map_update (sid : List Char) (v : List (List Char)) :
    ∀ st : Store, sid ∈ st.map Prod.fst →
      List.lookup sid (st.map fun e => if e.1 = sid then (e.1, v) else e) = some v := by
  intro st
  induction st with
  | nil => intro h; exact absurd h (by simp)
  | cons e rest ih =>
    intro hmem
    by_cases he : e.1 = sid
    · rw [List.map_cons, if_pos he, List.lookup_cons]
      have hb : (sid == e.1) = true := beq_iff_eq.mpr he.symm
      rw [hb]
    · rw [List.map_cons, if_neg he, List.lookup_cons]
      have hb : (sid == e.1) = false :=
        beq_eq_false_iff_ne.mpr fun h => he h.symm
      rw [hb]
      refine ih ?_
      rw [List.map_cons] at hmem
      rcases List.mem_cons.mp hmem with h | h
      · exact absurd h.symm he
      · exact h

theorem get_session_history_fresh (sid : List Char) (st : Store)
    (hmem : sid ∉ st.map Prod.fst) (hlen : st.length < MAX_SESSIONS) :
    get_session_history sid st = (st ++ [(sid, [])], [], 0) := by
  rw [get_session_history]
  simp only [evictLoop_small sid st hlen, if_neg hmem,
    lookup_append_self sid [] st hmem]
  simp only [Option.getD_some, List.length_nil, List.drop_nil]
  rw [List.map_append, map_update_of_not_mem sid _ st hmem]
  simp

theorem get_session_history_evictStep (sid : List Char) (st : Store)
    (hmem : sid ∉ st.map Prod.fst) (hlen : st.length = 50) :
    get_session_history sid st = (st.drop 1 ++ [(sid, [])], [], 1) := by
  have he : evictLoop sid st = (st.drop 1, 1) := by
    rw [evictLoop_not_mem sid st hmem, hlen]
  have hmem1 : sid ∉ (st.drop 1).map Prod.fst := by
    intro h
    rw [List.map_drop] at h
    exact hmem (List.mem_of_mem_drop h)
  rw [get_session_history]
  simp only [he, if_neg hmem1, lookup_append_self sid [] _ hmem1]
  simp only [Option.getD_some, List.length_nil, List.drop_nil]
  rw [List.map_append, map_update_of_not_mem sid _ _ hmem1]
  simp

theorem keys_of_blank (l : List (List Char)) :
    (l.map fun i => (i, ([] : List (List Char)))).map Prod.fst = l := by
  rw [List.map_map]
  change List.map id _ = _
  rw [List.map_id]

theorem useSessions_fresh :
    ∀ (ids : List (List Char)) (st : Store) (n0 : Nat),
      (∀ i ∈ ids, i ∉ st.map Prod.fst) → ids.Nodup →
      st.length + ids.length ≤ MAX_SESSIONS →
      ids.foldl (fun acc sid =>
          let r := get_session_history sid acc.1
          (r.1, acc.2 + r.2.2)) (st, n0) =
        (st ++ ids.map fun i => (i, []), n0) := by
  intro ids
  induction ids with
  | nil => intro st n0 _ _ _; simp
  | cons i ids ih =>
    intro st n0 hfresh hnd hcap
    rw [List.foldl_cons]
    have hmem : i ∉ st.map Prod.fst := hfresh i (List.mem_cons_self ..)
    have hlen : st.length < MAX_SESSIONS := by
      simp only [List.length_cons] at hcap
      omega
    have hni := List.nodup_cons.mp hnd
    simp only [get_session_history_fresh i st hmem hlen]
    have hstep := ih (st ++ [(i, [])]) (n0 + 0) ?fresh hni.2 ?cap
    case fresh =>
      intro j hj hkey
      rw [List.map_append] at hkey
      rcases List.mem_append.mp hkey with h | h
      · exact hfresh j (List.mem_cons_of_mem _ hj) h
      · simp only [List.map_cons, List.map_nil, List.mem_singleton] at h
        exact hni.1 (h ▸ hj)
    case cap =>
      simp only [List.length_append, List.length_cons, List.length_nil] at hcap ⊢
      omega
    rw [hstep]
    simp

/-! ### Claim theorems: session store -/

/-- Claim C5: the session cap is 50; starting from empty, 51 distinct ids
used sequentially cause exactly one eviction, removing the first-created
session (the final keys are the last 50 ids, in creation order); a request
for an unseen id at capacity evicts in creation order, one session at a
time, until the insertion fits; and the store never exceeds 50 sessions. -/
theorem claim_C5 :
    MAX_SESSIONS = 50 ∧
    (∀ ids : List (List Char), ids.Nodup → ids.length = 51 →
      (useSessions ids []).2 = 1 ∧
      (useSessions ids []).1.map Prod.fst = ids.drop 1) ∧
    (∀ (sid : List Char) (st : Store), st.length ≤ 50 →
      (get_session_history sid st).1.length ≤ 50) ∧
    (∀ (sid : List Char) (st : Store), sid ∉ st.map Prod.fst → 50 ≤ st.length →
      evictLoop sid st = (st.drop (st.length - 49), st.length - 49)) := by
  refine ⟨rfl, ?_, ?_, ?_⟩
  · intro ids hnd hlen
    have hsplit : ids.take 50 ++ ids.drop 50 = ids := List.take_append_drop ..
    have hdlen : (ids.drop 50).length = 1 := by
      rw [List.length_drop, hlen]
    obtain ⟨x, hx⟩ := List.length_eq_one.mp hdlen
    have htlen : (ids.take 50).length = 50 := by
      rw [List.length_take, hlen]
      omega
    have hnd2 : (ids.take 50 ++ [x]).Nodup := by
      rw [← hx, hsplit]
      exact hnd
    have hxnot : x ∉ ids.take 50 := by
      intro hmem
      have hdis := (List.nodup_append.mp hnd2).2.2
      exact hdis hmem (List.mem_singleton.mpr rfl)
    set T := ids.take 50 with hT
    have hids : ids = T ++ [x] := by
      conv_lhs => rw [← hsplit]
      rw [hx]
    rw [useSessions, hids, List.foldl_append]
    have hfront := useSessions_fresh T [] 0
      (by intro i _ h; simp at h)
      ((List.Nodup.sublist (List.take_sublist ..)) hnd)
      (by rw [htlen]; rfl)
    rw [hfront]
    simp only [List.nil_append, List.foldl_cons, List.foldl_nil]
    have hkeys : (T.map fun i => (i, ([] : List (List Char)))).map
        Prod.fst = T := keys_of_blank _
    have hxkeys : x ∉ (T.map fun i => (i, ([] : List (List Char)))).map
        Prod.fst := by
      rw [hkeys]
      exact hxnot
    have hslen : (T.map fun i => (i, ([] : List (List Char)))).length = 50 := by
      rw [List.length_map, htlen]
    have hstep := get_session_history_evictStep x _ hxkeys hslen
    simp only [hstep]
    refine ⟨trivial, ?_⟩
    rw [List.map_append, List.map_drop, hkeys,
      List.drop_append_of_le_length (by rw [htlen]; omega)]
    simp
  · intro sid st h50
    rw [get_session_history]
    obtain ⟨k, hk⟩ := evictLoop_drop_shape sid st
    rcases evictLoop_post sid st with hpost | hpost
    · simp only [if_pos hpost, List.length_map]
      rw [hk]
      simp only [List.length_drop]
      omega
    · split
      next =>
        simp only [List.length_map]
        rw [hk]
        simp only [List.length_drop]
        omega
      next =>
        simp only [List.length_map, List.length_append, List.length_singleton]
        simp only [MAX_SESSIONS] at hpost
        omega
  · intro sid st hmem _
    exact evictLoop_not_mem sid st hmem

/-- Claim C5 witness: 51 concrete distinct session ids cause exactly one
eviction. -/
theorem claim_C5_witness :
    (((List.range 51).map fun n => List.replicate n 'a').Nodup ∧
      ((List.range 51).map fun n => List.replicate n 'a').length = 51) ∧
    (useSessions ((List.range 51).map fun n => List.replicate n 'a') []).2 = 1 :=
  ⟨⟨List.Nodup.map (fun a b h => by simpa using congrArg List.length h)
      (List.nodup_range 51), by simp⟩,
    (claim_C5.2.1 _
      (List.Nodup.map (fun a b h => by simpa using congrArg List.length h)
        (List.nodup_range 51)) (by simp)).1⟩

/-! ### Lemmas: single-session turns -/

theorem get_session_history_empty (sid : List Char) :
    get_session_history sid [] = ([(sid, [])], [], 0) := by
  rw [get_session_history]
  simp only [evictLoop]
  rw [if_neg (by simp)]
  simp only [List.nil_append, List.lookup_cons]
  rw [show (sid == sid) = true from beq_self_eq_true sid]
  simp

theorem get_session_history_single (sid : List Char) (h : List (List Char)) :
    get_session_history sid [(sid, h)] =
      ([(sid, h.drop (h.length - 4))], h.drop (h.length - 4), 0) := by
  rw [get_session_history]
  have hev : evictLoop sid [(sid, h)] = ([(sid, h)], 0) :=
    evictLoop_small sid _ (by simp [MAX_SESSIONS])
  simp only [hev]
  rw [if_pos (by simp)]
  simp only [List.lookup_cons]
  rw [show (sid == sid) = true from beq_self_eq_true sid]
  simp

theorem appendMsg_single (sid m : List Char) (h : List (List Char)) :
    appendMsg sid m [(sid, h)] = [(sid, h ++ [m])] := by
  rw [appendMsg]
  simp

/-! ### Claim theorems: history truncation -/

/-- Claim C6 counterexample: the claim says every append is followed by
truncation to the last 4 entries, but the code truncates inside
`get_session_history` (on fetch), not after appends: after three turns the
stored history of the session holds all 6 messages. -/
theorem claim_C6_counterexample :
    (List.lookup "s".data
        (chatTurn "s".data "u3".data "a3".data
          (chatTurn "s".data "u2".data "a2".data
            (chatTurn "s".data "u1".data "a1".data [])))).getD [] =
      ["u1".data, "a1".data, "u2".data, "a2".data, "u3".data, "a3".data] ∧
    ¬((List.lookup "s".data
        (chatTurn "s".data "u3".data "a3".data
          (chatTurn "s".data "u2".data "a2".data
            (chatTurn "s".data "u1".data "a1".data [])))).getD []).length ≤ 4 := by
  exact ⟨by decide, by decide⟩

/-- Claim C6 (amended): histories are truncated to their last 4 entries on
each fetch (`get_session_history`), not after each append; hence a fetched
history never exceeds 4 entries, the store is updated to the truncated
history on fetch, and after 3 user/assistant exchange pairs appended to one
session `getHistory` returns exactly the last 4 entries. -/
theorem claim_C6_amended :
    (∀ (sid : List Char) (st : Store),
      (get_session_history sid st).2.1.length ≤ 4) ∧
    (∀ (sid : List Char) (st : Store),
      List.lookup sid (get_session_history sid st).1 =
        some (get_session_history sid st).2.1) ∧
    (∀ (sid u1 a1 u2 a2 u3 a3 : List Char),
      (get_session_history sid
        (chatTurn sid u3 a3
          (chatTurn sid u2 a2 (chatTurn sid u1 a1 [])))).2.1 =
        [u2, a2, u3, a3]) := by
  refine ⟨?_, ?_, ?_⟩
  · intro sid st
    rw [get_session_history]
    simp only [List.length_drop]
    omega
  · intro sid st
    rw [get_session_history]
    simp only []
    apply lookup_map_update
    split
    next h => exact h
    next h =>
      rw [List.map_append]
      exact List.mem_append.mpr (Or.inr (by simp))
  · intro sid u1 a1 u2 a2 u3 a3
    have t1 : chatTurn sid u1 a1 [] = [(sid, [u1, a1])] := by
      rw [chatTurn, get_session_history_empty]
      simp only [appendMsg_single]
      simp
    have t2 : chatTurn sid u2 a2 [(sid, [u1, a1])] = [(sid, [u1, a1, u2, a2])] := by
      rw [chatTurn, get_session_history_single]
      simp only [appendMsg_single]
      simp
    have t3 : chatTurn sid u3 a3 [(sid, [u1, a1, u2, a2])] =
        [(sid, [u1, a1, u2, a2, u3, a3])] := by
      rw [chatTurn, get_session_history_single]
      simp only [appendMsg_single]
      simp
    rw [t1, t2, t3, get_session_history_single]
    simp
